import Mathlib

/-!
Shallow embedding of `src/storage-proofs/src/crypto/feistel.rs`: a keyed
Feistel-network permutation over the smallest power-of-4 superset of
`[0, num_elements)`, folded back onto the target range by cycle walking.

Machine integers (`Index = u64`) are modelled as `Nat`, with an explicit
`% 2 ^ 64` at the one place the Rust code can overflow (the `next_pow4 *= 4`
step of `precompute`).  The two `while` loops (`precompute`'s search and the
cycle walks of `permute` / `invert_permute`) are modelled with explicit fuel
returning `Option`, since they need not terminate for every input.  The
fallible key indexing `keys[i]` in `decode` (a Rust panic when out of bounds)
is modelled with `Option` as well.  The external Blake2b digest (the `blake2`
crate, not part of this repository) is treated as an opaque byte oracle
passed to every function that uses it.
-/

namespace FeistelRs

/-- The Rust `Index` type (`u64`), modelled as `Nat`. -/
abbrev Index := Nat

/-- The modulus of the `u64` type. -/
def U64 : Nat := 2 ^ 64

/-- `FEISTEL_ROUNDS`. -/
def FEISTEL_ROUNDS : Nat := 3

/-- `HALF_FEISTEL_BYTES = mem::size_of::<Index>() = 8`. -/
def HALF_FEISTEL_BYTES : Nat := 8

/-- `FEISTEL_BYTES = 2 * HALF_FEISTEL_BYTES`. -/
def FEISTEL_BYTES : Nat := 2 * HALF_FEISTEL_BYTES

/-- `FeistelPrecomputed = (left_mask, right_mask, half_bits)`. -/
abbrev FeistelPrecomputed := Index × Index × Index

/-- The external digest function (`FeistelHash = Blake2b`), treated as an
opaque oracle: `d data i` is byte `i` of the digest of the byte buffer
`data`.  Digest bytes are `Fin 256`. -/
def Digest : Type := List Nat → Nat → Fin 256

/-- A concrete digest oracle (every digest byte is zero), used to instantiate
theorems at concrete inputs. -/
def zeroDigest : Digest := fun _ _ => 0

/-- The `while next_pow4 < num_elements` loop of `precompute`, with explicit
fuel; the `next_pow4 *= 4` step wraps at `2 ^ 64` as the Rust `u64` does. -/
def precomputeLoop (num_elements : Index) : Nat → Index → Index → Option (Index × Index)
  | 0, _, _ => none
  | fuel + 1, next_pow4, log4 =>
    if next_pow4 < num_elements then
      precomputeLoop num_elements fuel (next_pow4 * 4 % U64) (log4 + 1)
    else
      some (next_pow4, log4)

/-- `precompute(num_elements)`.  Fuel `64` is enough for every terminating run
of the loop: `next_pow4` quadruples from `4`, so after at most `31` steps it
either meets `num_elements` or wraps to `0` and the loop can never exit. -/
def precompute (num_elements : Index) : Option FeistelPrecomputed :=
  match precomputeLoop num_elements 64 4 1 with
  | none => none
  | some (_, log4) => some (((1 <<< log4) - 1) <<< log4, (1 <<< log4) - 1, log4)

/-- `common_setup(index, precomputed)`. -/
def common_setup (index : Index) (precomputed : FeistelPrecomputed) :
    Index × Index × Index × Index :=
  let (left_mask, right_mask, half_bits) := precomputed
  ((index &&& left_mask) >>> half_bits, index &&& right_mask, right_mask, half_bits)

/-- One serialization loop of `feistel`: write the big-endian bytes of `v`
into positions `0 .. HALF_FEISTEL_BYTES` of `data` (shifts 56, 48, ..., 0;
`as u8` is `% 256`). -/
def writeHalfBE (data : List Nat) (v : Index) : List Nat :=
  (List.range HALF_FEISTEL_BYTES).foldl
    (fun acc i => acc.set i (v >>> ((HALF_FEISTEL_BYTES - 1 - i) * 8) % 256)) data

/-- Round function `F(right, key)`: zero a 16-byte buffer, write the bytes of
`right` into its first half, then write the bytes of `key` over those same
positions, hash the buffer, OR together digest bytes `0, 8, ..., 56`, and
mask the result with `right_mask`. -/
def feistel (d : Digest) (right key right_mask : Index) : Index :=
  let data0 : List Nat := List.replicate FEISTEL_BYTES 0
  let data1 := writeHalfBE data0 right
  let data2 := writeHalfBE data1 key
  let r := (List.range HALF_FEISTEL_BYTES).foldl
    (fun acc i => acc ||| (d data2 (i * 8) : Nat)) 0
  r &&& right_mask

/-- The round loop of `encode`, over the keys actually used. -/
def encodeRounds (d : Digest) (right_mask : Index) :
    List Index → Index × Index → Index × Index
  | [], lr => lr
  | key :: rest, (left, right) =>
    encodeRounds d right_mask rest (right, left ^^^ feistel d right key right_mask)

/-- `encode(index, keys, precomputed)`: forward rounds over
`keys.iter().take(FEISTEL_ROUNDS)`. -/
def encode (d : Digest) (index : Index) (keys : List Index)
    (precomputed : FeistelPrecomputed) : Index :=
  let (left, right, right_mask, half_bits) := common_setup index precomputed
  let lr := encodeRounds d right_mask (keys.take FEISTEL_ROUNDS) (left, right)
  (lr.1 <<< half_bits) ||| lr.2

/-- The round loop of `decode`; the key lookup `keys[i]` is fallible (`none`
models the Rust out-of-bounds panic). -/
def decodeRounds (d : Digest) (keys : List Index) (right_mask : Index) :
    List Nat → Index × Index → Option (Index × Index)
  | [], lr => some lr
  | i :: rest, (left, right) =>
    match keys.get? i with
    | none => none
    | some key =>
      decodeRounds d keys right_mask rest (right ^^^ feistel d left key right_mask, left)

/-- `decode(index, keys, precomputed)`: the rounds in reverse key order
(`(0..FEISTEL_ROUNDS).rev()`). -/
def decode (d : Digest) (index : Index) (keys : List Index)
    (precomputed : FeistelPrecomputed) : Option Index :=
  let (left, right, right_mask, half_bits) := common_setup index precomputed
  match decodeRounds d keys right_mask (List.range FEISTEL_ROUNDS).reverse (left, right) with
  | none => none
  | some lr => some ((lr.1 <<< half_bits) ||| lr.2)

/-- The `while u >= num_elements` cycle-walk loop of `permute`, with fuel. -/
def permuteLoop (d : Digest) (num_elements : Index) (keys : List Index)
    (precomputed : FeistelPrecomputed) : Nat → Index → Option Index
  | 0, _ => none
  | fuel + 1, u =>
    if u < num_elements then some u
    else permuteLoop d num_elements keys precomputed fuel (encode d u keys precomputed)

/-- `permute(num_elements, index, keys, precomputed)`. -/
def permute (d : Digest) (fuel : Nat) (num_elements index : Index)
    (keys : List Index) (precomputed : FeistelPrecomputed) : Option Index :=
  permuteLoop d num_elements keys precomputed fuel (encode d index keys precomputed)

/-- The cycle-walk loop of `invert_permute`, with fuel. -/
def invertPermuteLoop (d : Digest) (num_elements : Index) (keys : List Index)
    (precomputed : FeistelPrecomputed) : Nat → Index → Option Index
  | 0, _ => none
  | fuel + 1, u =>
    if u < num_elements then some u
    else
      match decode d u keys precomputed with
      | none => none
      | some u2 => invertPermuteLoop d num_elements keys precomputed fuel u2

/-- `invert_permute(num_elements, index, keys, precomputed)`. -/
def invert_permute (d : Digest) (fuel : Nat) (num_elements index : Index)
    (keys : List Index) (precomputed : FeistelPrecomputed) : Option Index :=
  match decode d index keys precomputed with
  | none => none
  | some u => invertPermuteLoop d num_elements keys precomputed fuel u

/-- The mask triple `precompute` builds from a given `half_bits` value. -/
def masksOf (h : Nat) : FeistelPrecomputed :=
  (((1 <<< h) - 1) <<< h, (1 <<< h) - 1, h)

/-! ### Bit-manipulation helper lemmas -/

/-- Shifting a mask left by `h` and masking commutes with shifting the value
right by `h`. -/
theorem and_shiftLeft_shiftRight (y m h : Nat) :
    (y &&& (m <<< h)) >>> h = (y >>> h) &&& m := by
  apply Nat.eq_of_testBit_eq
  intro i
  simp only [Nat.testBit_shiftRight, Nat.testBit_and, Nat.testBit_shiftLeft, ge_iff_le,
    Nat.le_add_right, decide_True, Bool.true_and, Nat.add_sub_cancel_left]

/-- Extracting the right half of a recombined pair returns the right piece. -/
theorem or_extract_right {r : Nat} (l h : Nat) (hr : r < 2 ^ h) :
    ((l <<< h) ||| r) &&& (2 ^ h - 1) = r := by
  apply Nat.eq_of_testBit_eq
  intro i
  simp only [Nat.testBit_and, Nat.testBit_or, Nat.testBit_shiftLeft,
    Nat.testBit_two_pow_sub_one, ge_iff_le]
  by_cases hi : i < h
  · have hhi : ¬h ≤ i := by omega
    simp [hi, hhi]
  · have hri : r.testBit i = false :=
      Nat.testBit_lt_two_pow (lt_of_lt_of_le hr (Nat.pow_le_pow_right (by omega) (by omega)))
    simp [hi, hri]

/-- Extracting the left half of a recombined pair returns the left piece. -/
theorem or_extract_left {l r : Nat} (h : Nat) (hl : l < 2 ^ h) (hr : r < 2 ^ h) :
    (((l <<< h) ||| r) &&& ((2 ^ h - 1) <<< h)) >>> h = l := by
  apply Nat.eq_of_testBit_eq
  intro i
  simp only [Nat.testBit_shiftRight, Nat.testBit_and, Nat.testBit_or, Nat.testBit_shiftLeft,
    Nat.testBit_two_pow_sub_one, ge_iff_le, Nat.le_add_right, decide_True, Bool.true_and,
    Nat.add_sub_cancel_left]
  have hri : r.testBit (h + i) = false :=
    Nat.testBit_lt_two_pow (lt_of_lt_of_le hr (Nat.pow_le_pow_right (by omega) (by omega)))
  by_cases hi : i < h
  · simp [hi, hri]
  · have hli : l.testBit i = false :=
      Nat.testBit_lt_two_pow (lt_of_lt_of_le hl (Nat.pow_le_pow_right (by omega) (by omega)))
    simp [hi, hri, hli]

/-- Splitting a `2 * h`-bit value into halves and recombining them gives the
value back. -/
theorem split_reassemble {x : Nat} (h : Nat) (hx : x < 2 ^ (2 * h)) :
    ((((x &&& ((2 ^ h - 1) <<< h)) >>> h) <<< h) ||| (x &&& (2 ^ h - 1))) = x := by
  apply Nat.eq_of_testBit_eq
  intro i
  simp only [Nat.testBit_or, Nat.testBit_shiftLeft, Nat.testBit_shiftRight, Nat.testBit_and,
    Nat.testBit_two_pow_sub_one, ge_iff_le]
  by_cases hi : i < h
  · have hhi : ¬h ≤ i := by omega
    simp [hi, hhi]
  · have hhi : h ≤ i := by omega
    by_cases h2i : i < 2 * h
    · have h1 : h + (i - h) = i := by omega
      have h2 : i - h < h := by omega
      simp [hhi, h1, h2, hi]
    · have hxi : x.testBit i = false :=
        Nat.testBit_lt_two_pow (lt_of_lt_of_le hx (Nat.pow_le_pow_right (by omega) (by omega)))
      have h2 : ¬i - h < h := by omega
      simp [hhi, hxi, h2, hi]

/-- The left half produced by `common_setup` with the real masks is below
`2 ^ h`, for every input. -/
theorem left_half_lt (x h : Nat) : (x &&& ((2 ^ h - 1) <<< h)) >>> h < 2 ^ h := by
  rw [and_shiftLeft_shiftRight]
  exact Nat.and_lt_two_pow _ (by have := Nat.two_pow_pos h; omega)

/-- The right half produced by `common_setup` with the real masks is below
`2 ^ h`, for every input. -/
theorem right_half_lt (x h : Nat) : x &&& (2 ^ h - 1) < 2 ^ h :=
  Nat.and_lt_two_pow _ (by have := Nat.two_pow_pos h; omega)

/-! ### Structural lemmas about the embedded functions -/

/-- The round function output never exceeds the mask it is filtered through. -/
theorem feistel_le (d : Digest) (r k rm : Index) : feistel d r k rm ≤ rm :=
  Nat.and_le_right

/-- The round function output is below `2 ^ h` whenever the mask is
`2 ^ h - 1`. -/
theorem feistel_lt (d : Digest) (r k : Index) (h : Nat) :
    feistel d r k (2 ^ h - 1) < 2 ^ h := by
  have h1 : feistel d r k (2 ^ h - 1) ≤ 2 ^ h - 1 := feistel_le d r k _
  have h2 : 0 < 2 ^ h := Nat.two_pow_pos h
  exact Nat.lt_of_le_of_lt h1 (Nat.sub_lt h2 Nat.one_pos)

/-- The mask triple built from `half_bits = h`, with the shifts evaluated. -/
theorem masksOf_eq (h : Nat) : masksOf h = ((2 ^ h - 1) <<< h, 2 ^ h - 1, h) := by
  simp [masksOf, Nat.one_shiftLeft]

/-- Any triple returned by `precompute` is `masksOf` of its own `half_bits`
component. -/
theorem precompute_some {n : Index} {P : FeistelPrecomputed}
    (hp : precompute n = some P) : P = masksOf P.2.2 := by
  unfold precompute at hp
  rcases hloop : precomputeLoop n 64 4 1 with _ | ⟨p, log4⟩ <;> rw [hloop] at hp
  · exact absurd hp (by simp)
  · simp only [Option.some.injEq] at hp
    subst hp
    rfl

/-- `encode` with at least three keys, unfolded to its three rounds. -/
theorem encode_cons3 (d : Digest) (x k0 k1 k2 : Index) (rest : List Index)
    (lm rm h : Index) :
    encode d x (k0 :: k1 :: k2 :: rest) (lm, rm, h) =
      (((x &&& rm) ^^^ feistel d (((x &&& lm) >>> h) ^^^ feistel d (x &&& rm) k0 rm) k1 rm)
          <<< h) |||
        ((((x &&& lm) >>> h) ^^^ feistel d (x &&& rm) k0 rm) ^^^
          feistel d
            ((x &&& rm) ^^^ feistel d (((x &&& lm) >>> h) ^^^ feistel d (x &&& rm) k0 rm) k1 rm)
            k2 rm) :=
  rfl

/-- `decode` with at least three keys, unfolded to its three rounds. -/
theorem decode_cons3 (d : Digest) (y k0 k1 k2 : Index) (rest : List Index)
    (lm rm h : Index) :
    decode d y (k0 :: k1 :: k2 :: rest) (lm, rm, h) =
      some (((((y &&& rm) ^^^ feistel d ((y &&& lm) >>> h) k2 rm) ^^^
              feistel d
                (((y &&& lm) >>> h) ^^^
                  feistel d ((y &&& rm) ^^^ feistel d ((y &&& lm) >>> h) k2 rm) k1 rm)
                k0 rm) <<< h) |||
          (((y &&& lm) >>> h) ^^^
            feistel d ((y &&& rm) ^^^ feistel d ((y &&& lm) >>> h) k2 rm) k1 rm)) :=
  rfl

/-- Feistel inversion: with at least three keys and the masks produced by
`precompute`, `decode` recovers any `2 * h`-bit input of `encode`. -/
theorem decode_encode (d : Digest) (h x k0 k1 k2 : Index) (rest : List Index)
    (hx : x < 2 ^ (2 * h)) :
    decode d (encode d x (k0 :: k1 :: k2 :: rest) (masksOf h))
        (k0 :: k1 :: k2 :: rest) (masksOf h) = some x := by
  rw [masksOf_eq, encode_cons3, decode_cons3]
  have hL0 : (x &&& ((2 ^ h - 1) <<< h)) >>> h < 2 ^ h := left_half_lt x h
  have hR0 : x &&& (2 ^ h - 1) < 2 ^ h := right_half_lt x h
  have hR1 : ((x &&& ((2 ^ h - 1) <<< h)) >>> h) ^^^
      feistel d (x &&& (2 ^ h - 1)) k0 (2 ^ h - 1) < 2 ^ h :=
    Nat.xor_lt_two_pow hL0 (feistel_lt d _ _ h)
  have hL3 : (x &&& (2 ^ h - 1)) ^^^
      feistel d (((x &&& ((2 ^ h - 1) <<< h)) >>> h) ^^^
        feistel d (x &&& (2 ^ h - 1)) k0 (2 ^ h - 1)) k1 (2 ^ h - 1) < 2 ^ h :=
    Nat.xor_lt_two_pow hR0 (feistel_lt d _ _ h)
  have hR3 : (((x &&& ((2 ^ h - 1) <<< h)) >>> h) ^^^
      feistel d (x &&& (2 ^ h - 1)) k0 (2 ^ h - 1)) ^^^
      feistel d ((x &&& (2 ^ h - 1)) ^^^
        feistel d (((x &&& ((2 ^ h - 1) <<< h)) >>> h) ^^^
          feistel d (x &&& (2 ^ h - 1)) k0 (2 ^ h - 1)) k1 (2 ^ h - 1)) k2 (2 ^ h - 1) <
      2 ^ h :=
    Nat.xor_lt_two_pow hR1 (feistel_lt d _ _ h)
  rw [or_extract_left h hL3 hR3, or_extract_right _ h hR3]
  simp only [Nat.xor_cancel_right]
  rw [split_reassemble h hx]

/-- Recombining two `h`-bit halves gives a `2 * h`-bit value. -/
theorem recombine_lt {l r h : Nat} (hl : l < 2 ^ h) (hr : r < 2 ^ h) :
    (l <<< h) ||| r < 2 ^ (2 * h) := by
  have hle : 2 ^ h ≤ 2 ^ (2 * h) := Nat.pow_le_pow_right (by omega) (by omega)
  apply Nat.or_lt_two_pow
  · rw [Nat.shiftLeft_eq, two_mul, Nat.pow_add]
    exact mul_lt_mul_of_pos_right hl (Nat.two_pow_pos h)
  · exact Nat.lt_of_lt_of_le hr hle

/-- Both components stay below `2 ^ h` through the forward rounds. -/
theorem encodeRounds_lt (d : Digest) (h : Nat) :
    ∀ (ks : List Index) (lr : Index × Index), lr.1 < 2 ^ h → lr.2 < 2 ^ h →
      (encodeRounds d (2 ^ h - 1) ks lr).1 < 2 ^ h ∧
        (encodeRounds d (2 ^ h - 1) ks lr).2 < 2 ^ h
  | [], _, h1, h2 => ⟨h1, h2⟩
  | k :: rest, (left, right), h1, h2 =>
    encodeRounds_lt d h rest (right, left ^^^ feistel d right k (2 ^ h - 1)) h2
      (Nat.xor_lt_two_pow h1 (feistel_lt d right k h))

/-- `encode` with the masks built from `half_bits = h` lands in the `2 * h`-bit
superset domain, for every index and every key list. -/
theorem encode_lt (d : Digest) (x : Index) (keys : List Index) (h : Nat) :
    encode d x keys (masksOf h) < 2 ^ (2 * h) := by
  rw [masksOf_eq]
  show (encodeRounds d (2 ^ h - 1) (keys.take FEISTEL_ROUNDS)
        ((x &&& ((2 ^ h - 1) <<< h)) >>> h, x &&& (2 ^ h - 1))).1 <<< h |||
      (encodeRounds d (2 ^ h - 1) (keys.take FEISTEL_ROUNDS)
        ((x &&& ((2 ^ h - 1) <<< h)) >>> h, x &&& (2 ^ h - 1))).2 < 2 ^ (2 * h)
  obtain ⟨hl, hr⟩ := encodeRounds_lt d h (keys.take FEISTEL_ROUNDS)
    ((x &&& ((2 ^ h - 1) <<< h)) >>> h, x &&& (2 ^ h - 1))
    (left_half_lt x h) (right_half_lt x h)
  exact recombine_lt hl hr

/-- Characterization of `decode` as its round loop over indices `[2, 1, 0]`. -/
theorem decode_eq (d : Digest) (y : Index) (keys : List Index) (lm rm h : Index) :
    decode d y keys (lm, rm, h) =
      match decodeRounds d keys rm [2, 1, 0] ((y &&& lm) >>> h, y &&& rm) with
      | none => none
      | some lr => some ((lr.1 <<< h) ||| lr.2) :=
  rfl

/-- Both components stay below `2 ^ h` through the backward rounds, whenever
the loop completes. -/
theorem decodeRounds_lt (d : Digest) (keys : List Index) (h : Nat) :
    ∀ (idxs : List Nat) (lr lr2 : Index × Index), lr.1 < 2 ^ h → lr.2 < 2 ^ h →
      decodeRounds d keys (2 ^ h - 1) idxs lr = some lr2 →
      lr2.1 < 2 ^ h ∧ lr2.2 < 2 ^ h := by
  intro idxs
  induction idxs with
  | nil =>
    intro lr lr2 h1 h2 heq
    simp only [decodeRounds, Option.some.injEq] at heq
    subst heq
    exact ⟨h1, h2⟩
  | cons i rest ih =>
    rintro ⟨left, right⟩ lr2 h1 h2 heq
    rcases hk : keys.get? i with _ | k
    · rw [List.get?_eq_getElem?] at hk
      simp [decodeRounds, hk] at heq
    · simp only [decodeRounds, hk] at heq
      exact ih (right ^^^ feistel d left k (2 ^ h - 1), left) lr2
        (Nat.xor_lt_two_pow h2 (feistel_lt d left k h)) h1 heq

/-- A successful `decode` with the masks built from `half_bits = h` lands in
the `2 * h`-bit superset domain, for every index and every key list. -/
theorem decode_lt (d : Digest) (y : Index) (keys : List Index) (h : Nat) {v : Index}
    (hv : decode d y keys (masksOf h) = some v) : v < 2 ^ (2 * h) := by
  rw [masksOf_eq, decode_eq] at hv
  rcases hrounds : decodeRounds d keys (2 ^ h - 1) [2, 1, 0]
      ((y &&& ((2 ^ h - 1) <<< h)) >>> h, y &&& (2 ^ h - 1)) with _ | lr <;>
    rw [hrounds] at hv
  · exact absurd hv (by simp)
  · obtain ⟨hl, hr⟩ := decodeRounds_lt d keys h [2, 1, 0] _ lr
      (left_half_lt y h) (right_half_lt y h) hrounds
    simp only [Option.some.injEq] at hv
    subst hv
    exact recombine_lt hl hr

/-! ### Cycle-walk loop lemmas -/

/-- When one application of `encode` already lands below `num_elements`,
`permute` stops immediately (the loop body never runs). -/
theorem permute_single (d : Digest) (f : Nat) (n i : Index) (keys : List Index)
    (P : FeistelPrecomputed) (hlt : encode d i keys P < n) :
    permute d (f + 1) n i keys P = some (encode d i keys P) := by
  unfold permute permuteLoop
  rw [if_pos hlt]

/-- When every successful `decode` lands below `num_elements`,
`invert_permute` is exactly one `decode` (the loop body never runs). -/
theorem invert_permute_single (d : Digest) (f : Nat) (n i : Index) (keys : List Index)
    (P : FeistelPrecomputed) (hdec : ∀ v, decode d i keys P = some v → v < n) :
    invert_permute d (f + 1) n i keys P = decode d i keys P := by
  unfold invert_permute
  rcases hd : decode d i keys P with _ | v
  · rfl
  · unfold invertPermuteLoop
    rw [if_pos (hdec v hd)]

/-- With `num_elements = 0` the cycle-walk loop of `permute` never exits. -/
theorem permuteLoop_zero_none (d : Digest) (keys : List Index)
    (P : FeistelPrecomputed) : ∀ (fuel : Nat) (u : Index),
    permuteLoop d 0 keys P fuel u = none := by
  intro fuel
  induction fuel with
  | zero => intro _; rfl
  | succ f ih =>
    intro u
    unfold permuteLoop
    rw [if_neg (Nat.not_lt_zero u)]
    exact ih _

/-- With `num_elements = 0` the cycle-walk loop of `invert_permute` never
exits. -/
theorem invertPermuteLoop_zero_none (d : Digest) (keys : List Index)
    (P : FeistelPrecomputed) : ∀ (fuel : Nat) (u : Index),
    invertPermuteLoop d 0 keys P fuel u = none := by
  intro fuel
  induction fuel with
  | zero => intro _; rfl
  | succ f ih =>
    intro u
    unfold invertPermuteLoop
    rw [if_neg (Nat.not_lt_zero u)]
    rcases decode d u keys P with _ | u2
    · rfl
    · exact ih u2

/-! ### The `precompute` search loop -/

/-- Once `next_pow4` has wrapped to `0`, the `precompute` loop can never
produce a value (for positive `num_elements`). -/
theorem precomputeLoop_zero_stuck (n : Nat) (hn : 0 < n) :
    ∀ (fuel log4 : Nat), precomputeLoop n fuel 0 log4 = none := by
  intro fuel
  induction fuel with
  | zero => intro _; rfl
  | succ f ih =>
    intro log4
    unfold precomputeLoop
    rw [if_pos hn]
    have h04 : 0 * 4 % U64 = 0 := by simp
    rw [h04]
    exact ih _

/-- Loop invariant for the `precompute` search: any value it returns is the
least `half_bits ≥ 1` whose power-of-4 covers `num_elements`. -/
theorem precomputeLoop_spec (n : Nat) :
    ∀ fuel log4 p h p2 : Nat, p = 4 ^ log4 → 1 ≤ log4 → log4 ≤ 31 →
      (∀ j : Nat, 1 ≤ j → j < log4 → 4 ^ j < n) →
      precomputeLoop n fuel p log4 = some (p2, h) →
      1 ≤ h ∧ n ≤ 4 ^ h ∧ ∀ j : Nat, 1 ≤ j → n ≤ 4 ^ j → h ≤ j := by
  intro fuel
  induction fuel with
  | zero =>
    intro log4 p h p2 _ _ _ _ heq
    exact absurd heq (by simp [precomputeLoop])
  | succ f ih =>
    intro log4 p h p2 hp hl1 hl31 hmin heq
    unfold precomputeLoop at heq
    by_cases hpn : p < n
    · rw [if_pos hpn] at heq
      by_cases h31 : log4 < 31
      · refine ih (log4 + 1) (p * 4 % U64) h p2 ?_ (by omega) (by omega) ?_ heq
        · subst hp
          have hlt : 4 ^ (log4 + 1) < U64 := by
            calc 4 ^ (log4 + 1) ≤ 4 ^ 31 := Nat.pow_le_pow_right (by omega) (by omega)
            _ < U64 := by norm_num [U64]
          rw [← Nat.pow_succ]
          exact Nat.mod_eq_of_lt hlt
        · intro j hj hjlt
          rcases Nat.lt_or_ge j log4 with hcase | hcase
          · exact hmin j hj hcase
          · have hje : j = log4 := by omega
            subst hje
            rw [← hp]
            exact hpn
      · have h31e : log4 = 31 := by omega
        subst h31e
        subst hp
        have hz : (4 : Nat) ^ 31 * 4 % U64 = 0 := by norm_num [U64]
        rw [hz] at heq
        have hn1 : 1 ≤ n := by
          have : (0 : Nat) < 4 ^ 31 := by norm_num
          omega
        rw [precomputeLoop_zero_stuck n hn1 f (31 + 1)] at heq
        exact absurd heq (by simp)
    · rw [if_neg hpn] at heq
      simp only [Option.some.injEq, Prod.mk.injEq] at heq
      obtain ⟨-, hh⟩ := heq
      subst hh
      subst hp
      refine ⟨hl1, by omega, ?_⟩
      intro j hj hnj
      by_contra hcon
      have : 4 ^ j < n := hmin j hj (by omega)
      omega

/-- What `precompute` returns, in terms of the loop result: the masks and
`half_bits` are built from the returned `log4`. -/
theorem precompute_eq_loop (n : Index) :
    precompute n =
      match precomputeLoop n 64 4 1 with
      | none => none
      | some (_, log4) => some (masksOf log4) :=
  rfl

/-- The `half_bits` returned by `precompute` is the least positive `h` with
`4 ^ h ≥ num_elements`. -/
theorem precompute_half_bits {n : Nat} {P : FeistelPrecomputed}
    (hp : precompute n = some P) :
    1 ≤ P.2.2 ∧ n ≤ 4 ^ P.2.2 ∧ ∀ j : Nat, 1 ≤ j → n ≤ 4 ^ j → P.2.2 ≤ j := by
  rw [precompute_eq_loop] at hp
  rcases hloop : precomputeLoop n 64 4 1 with _ | ⟨p, log4⟩ <;> rw [hloop] at hp
  · exact absurd hp (by simp)
  · simp only [Option.some.injEq] at hp
    subst hp
    exact precomputeLoop_spec n 64 1 4 log4 p rfl (by omega) (by omega)
      (by omega) hloop

/-- Fuel adequacy, termination side: for `num_elements ≤ 4 ^ 31` the search
loop returns within the fuel budget, so `precompute` produces a triple. -/
theorem precomputeLoop_terminates (n : Nat) (hn : n ≤ 4 ^ 31) :
    ∀ fuel log4 p : Nat, p = 4 ^ log4 → log4 ≤ 31 → 31 - log4 < fuel →
      ∃ pr, precomputeLoop n fuel p log4 = some pr := by
  intro fuel
  induction fuel with
  | zero =>
    intro log4 p hp hl31 hfuel
    omega
  | succ f ih =>
    intro log4 p hp hl31 hfuel
    unfold precomputeLoop
    by_cases hpn : p < n
    · rw [if_pos hpn]
      have hlt31 : log4 < 31 := by
        by_contra hcon
        have h31 : log4 = 31 := by omega
        subst h31
        subst hp
        omega
      have hstep : p * 4 % U64 = 4 ^ (log4 + 1) := by
        subst hp
        have hlt : 4 ^ (log4 + 1) < U64 := by
          calc 4 ^ (log4 + 1) ≤ 4 ^ 31 := Nat.pow_le_pow_right (by omega) (by omega)
          _ < U64 := by norm_num [U64]
        rw [← Nat.pow_succ]
        exact Nat.mod_eq_of_lt hlt
      rw [hstep]
      exact ih (log4 + 1) (4 ^ (log4 + 1)) rfl (by omega) (by omega)
    · rw [if_neg hpn]
      exact ⟨(p, log4), rfl⟩

/-- Fuel adequacy, termination side, packaged: `precompute` returns a triple
for every `num_elements ≤ 4 ^ 31`. -/
theorem precompute_terminates {n : Nat} (hn : n ≤ 4 ^ 31) :
    ∃ P, precompute n = some P := by
  obtain ⟨pr, hpr⟩ := precomputeLoop_terminates n hn 64 1 4 rfl (by omega) (by omega)
  refine ⟨masksOf pr.2, ?_⟩
  rw [precompute_eq_loop, hpr]

/-- Fuel adequacy, divergence side: for `num_elements > 4 ^ 31` the search
loop never returns under any fuel — `next_pow4` overflows the `u64` to `0`
and the guard stays true forever — so the `none` that `precompute` reports
reflects genuine non-termination of the Rust loop, not fuel shortage. -/
theorem precomputeLoop_diverges (n : Nat) (hn : 4 ^ 31 < n) :
    ∀ fuel log4 p : Nat, p = 4 ^ log4 → log4 ≤ 31 →
      precomputeLoop n fuel p log4 = none := by
  intro fuel
  induction fuel with
  | zero => intro log4 p _ _; rfl
  | succ f ih =>
    intro log4 p hp hl31
    unfold precomputeLoop
    have hpn : p < n := by
      subst hp
      have : 4 ^ log4 ≤ 4 ^ 31 := Nat.pow_le_pow_right (by omega) hl31
      omega
    rw [if_pos hpn]
    by_cases h31 : log4 < 31
    · have hstep : p * 4 % U64 = 4 ^ (log4 + 1) := by
        subst hp
        have hlt : 4 ^ (log4 + 1) < U64 := by
          calc 4 ^ (log4 + 1) ≤ 4 ^ 31 := Nat.pow_le_pow_right (by omega) (by omega)
          _ < U64 := by norm_num [U64]
        rw [← Nat.pow_succ]
        exact Nat.mod_eq_of_lt hlt
      rw [hstep]
      exact ih (log4 + 1) (4 ^ (log4 + 1)) rfl (by omega)
    · have h31e : log4 = 31 := by omega
      subst h31e
      subst hp
      have hz : (4 : Nat) ^ 31 * 4 % U64 = 0 := by norm_num [U64]
      rw [hz]
      exact precomputeLoop_zero_stuck n (by omega) f 32

/-! ### The round function ignores its right argument -/

set_option maxHeartbeats 2000000 in
/-- The value of `feistel` does not depend on its `right` argument: the key
serialization loop writes over exactly the buffer positions that the
right-value serialization wrote, so the hashed buffer only contains the key
bytes (low half) and zeros (high half).  The equality is definitional. -/
theorem feistel_const (d : Digest) (r k m : Index) : feistel d r k m = feistel d 0 k m :=
  rfl

/-- Closed form of `encode` with at least three keys: because the round
function ignores its `right` argument, the three rounds collapse to XORs
with per-key constants. -/
theorem encode_closed (d : Digest) (x k0 k1 k2 : Nat) (rest : List Index)
    (lm rm h : Nat) :
    encode d x (k0 :: k1 :: k2 :: rest) (lm, rm, h) =
      (((x &&& rm) ^^^ feistel d 0 k1 rm) <<< h) |||
        ((((x &&& lm) >>> h) ^^^ feistel d 0 k0 rm) ^^^ feistel d 0 k2 rm) := by
  rw [encode_cons3]
  rw [feistel_const d (x &&& rm) k0 rm]
  rw [feistel_const d (((x &&& lm) >>> h) ^^^ feistel d 0 k0 rm) k1 rm]
  rw [feistel_const d ((x &&& rm) ^^^ feistel d 0 k1 rm) k2 rm]

/-! ### More bit lemmas -/

/-- OR-ing never decreases a number. -/
theorem or_ge_left (a b : Nat) : a ≤ a ||| b :=
  Nat.le_of_testBit fun i hi => by simp [Nat.testBit_or, hi]

/-- OR-ing in a number holding a bit the first number lacks strictly
increases it. -/
theorem lt_or_of_fresh_bit {a b j : Nat} (ha : a.testBit j = false)
    (hb : b.testBit j = true) : a < a ||| b := by
  refine lt_of_le_of_ne (or_ge_left a b) fun he => ?_
  have hj : (a ||| b).testBit j = a.testBit j := by rw [← he]
  rw [Nat.testBit_or, ha, hb] at hj
  simp at hj

/-- Values below `2 ^ h` pass through the right mask unchanged. -/
theorem and_right_mask_self {x : Nat} (h : Nat) (hx : x < 2 ^ h) :
    x &&& (2 ^ h - 1) = x :=
  Nat.and_pow_two_sub_one_of_lt_two_pow hx

/-- Values below `2 ^ h` are wiped out by the left mask. -/
theorem and_left_mask_zero {x : Nat} (h : Nat) (hx : x < 2 ^ h) :
    x &&& ((2 ^ h - 1) <<< h) = 0 := by
  apply Nat.eq_of_testBit_eq
  intro i
  simp only [Nat.testBit_and, Nat.testBit_shiftLeft, Nat.testBit_two_pow_sub_one,
    Nat.zero_testBit, ge_iff_le]
  by_cases hi : h ≤ i
  · have hxi : x.testBit i = false :=
      Nat.testBit_lt_two_pow (lt_of_lt_of_le hx (Nat.pow_le_pow_right (by omega) hi))
    simp [hxi]
  · simp [hi]

/-- The left and right masks are disjoint. -/
theorem mask_disjoint (h : Nat) : ((2 ^ h - 1) <<< h) &&& (2 ^ h - 1) = 0 := by
  apply Nat.eq_of_testBit_eq
  intro i
  simp only [Nat.testBit_and, Nat.testBit_shiftLeft, Nat.testBit_two_pow_sub_one,
    Nat.zero_testBit, ge_iff_le]
  by_cases hi : h ≤ i
  · have h1 : ¬i < h := by omega
    simp [h1]
  · simp [hi]

/-- The left and right masks together cover the low `2 * h` bits. -/
theorem mask_union (h : Nat) : ((2 ^ h - 1) <<< h) ||| (2 ^ h - 1) = 2 ^ (2 * h) - 1 := by
  apply Nat.eq_of_testBit_eq
  intro i
  simp only [Nat.testBit_or, Nat.testBit_shiftLeft, Nat.testBit_two_pow_sub_one, ge_iff_le]
  by_cases hi : i < h
  · have h1 : ¬h ≤ i := by omega
    have h2 : i < 2 * h := by omega
    simp [h1, hi, h2]
  · by_cases h2i : i < 2 * h
    · have h1 : h ≤ i := by omega
      have h3 : i - h < h := by omega
      simp [h1, h3, h2i]
    · have h1 : h ≤ i := by omega
      have h3 : ¬i - h < h := by omega
      simp [h1, h3, h2i, hi]

/-- With at least three keys and `half_bits = h`, an index whose right half is
the key-`k1` round constant XOR-ed with all ones encodes to a value whose top
half is all ones. -/
theorem encode_top_all_ones_left (d : Digest) (h L0 : Nat) (hL0 : L0 < 2 ^ h)
    (k0 k1 k2 : Nat) (rest : List Index) :
    encode d ((L0 <<< h) ||| (feistel d 0 k1 (2 ^ h - 1) ^^^ (2 ^ h - 1)))
        (k0 :: k1 :: k2 :: rest) ((2 ^ h - 1) <<< h, 2 ^ h - 1, h) =
      ((2 ^ h - 1) <<< h) |||
        ((L0 ^^^ feistel d 0 k0 (2 ^ h - 1)) ^^^ feistel d 0 k2 (2 ^ h - 1)) := by
  have hR : feistel d 0 k1 (2 ^ h - 1) ^^^ (2 ^ h - 1) < 2 ^ h :=
    Nat.xor_lt_two_pow (feistel_lt d 0 k1 h) (by have := Nat.two_pow_pos h; omega)
  rw [encode_closed]
  rw [or_extract_right L0 h hR]
  rw [or_extract_left h hL0 hR]
  rw [Nat.xor_comm (feistel d 0 k1 (2 ^ h - 1)) (2 ^ h - 1)]
  rw [Nat.xor_cancel_right]

/-- Generic escape witness: when `2 ^ h ≤ n < (2 ^ h - 1) <<< h`, some index
below `n` encodes above `n`. -/
theorem encode_escape_of_lt (d : Digest) (h n : Nat) (hlow : 2 ^ h ≤ n)
    (hhigh : n < (2 ^ h - 1) <<< h) (k0 k1 k2 : Nat) (rest : List Index) :
    ∃ i, i < n ∧
      n < encode d i (k0 :: k1 :: k2 :: rest) ((2 ^ h - 1) <<< h, 2 ^ h - 1, h) := by
  have hR : feistel d 0 k1 (2 ^ h - 1) ^^^ (2 ^ h - 1) < 2 ^ h :=
    Nat.xor_lt_two_pow (feistel_lt d 0 k1 h) (by have := Nat.two_pow_pos h; omega)
  refine ⟨(0 <<< h) ||| (feistel d 0 k1 (2 ^ h - 1) ^^^ (2 ^ h - 1)), ?_, ?_⟩
  · have hz : (0 <<< h) ||| (feistel d 0 k1 (2 ^ h - 1) ^^^ (2 ^ h - 1)) =
        feistel d 0 k1 (2 ^ h - 1) ^^^ (2 ^ h - 1) := by
      simp
    rw [hz]
    exact Nat.lt_of_lt_of_le hR hlow
  · rw [encode_top_all_ones_left d h 0 (Nat.two_pow_pos h) k0 k1 k2 rest]
    have := or_ge_left ((2 ^ h - 1) <<< h)
      ((0 ^^^ feistel d 0 k0 (2 ^ h - 1)) ^^^ feistel d 0 k2 (2 ^ h - 1))
    omega

/-- Escape witness for `n = 12`: a fresh low bit pushes the encoded value
strictly above `12`. -/
theorem encode_escape_twelve (d : Digest) :
    ∃ i, i < 12 ∧ 12 < encode d i [1, 2, 3, 4] ((2 ^ 2 - 1) <<< 2, 2 ^ 2 - 1, 2) := by
  set c0 := feistel d 0 1 (2 ^ 2 - 1) with hc0
  set c2 := feistel d 0 3 (2 ^ 2 - 1) with hc2
  set b := c0 ^^^ c2 with hbdef
  set L0 := (if b = 0 then 1 else 0 : Nat) with hL0def
  have hc0lt : c0 < 2 ^ 2 := feistel_lt d 0 1 2
  have hc2lt : c2 < 2 ^ 2 := feistel_lt d 0 3 2
  have hblt : b < 2 ^ 2 := Nat.xor_lt_two_pow hc0lt hc2lt
  have hL0le : L0 ≤ 1 := by rw [hL0def]; split <;> norm_num
  have hL0lt : L0 < 2 ^ 2 := lt_of_le_of_lt hL0le (by norm_num)
  have hR : feistel d 0 2 (2 ^ 2 - 1) ^^^ (2 ^ 2 - 1) < 2 ^ 2 :=
    Nat.xor_lt_two_pow (feistel_lt d 0 2 2) (by norm_num)
  refine ⟨(L0 <<< 2) ||| (feistel d 0 2 (2 ^ 2 - 1) ^^^ (2 ^ 2 - 1)), ?_, ?_⟩
  · have h8 : (L0 <<< 2) ||| (feistel d 0 2 (2 ^ 2 - 1) ^^^ (2 ^ 2 - 1)) < 2 ^ 3 := by
      apply Nat.or_lt_two_pow
      · rw [Nat.shiftLeft_eq]
        calc L0 * 2 ^ 2 ≤ 1 * 2 ^ 2 := Nat.mul_le_mul_right _ hL0le
        _ < 2 ^ 3 := by norm_num
      · exact lt_trans hR (by norm_num)
    exact lt_of_lt_of_le h8 (by norm_num)
  · rw [encode_top_all_ones_left d 2 L0 hL0lt 1 2 3 [4]]
    have hassoc : (L0 ^^^ c0) ^^^ c2 = L0 ^^^ b := by rw [hbdef, Nat.xor_assoc]
    rw [hassoc]
    have hlow0 : L0 ^^^ b ≠ 0 := by
      rw [hL0def]
      by_cases hb : b = 0
      · simp [hb]
      · simp [hb]
    have hlowlt : L0 ^^^ b < 2 ^ 2 := Nat.xor_lt_two_pow hL0lt hblt
    obtain ⟨j, hj⟩ := Nat.ne_zero_implies_bit_true hlow0
    have hj2 : j < 2 := by
      by_contra hju
      have hfalse : (L0 ^^^ b).testBit j = false :=
        Nat.testBit_lt_two_pow
          (lt_of_lt_of_le hlowlt (Nat.pow_le_pow_right (by omega) (by omega)))
      rw [hfalse] at hj
      exact absurd hj (by simp)
    have h12 : ((2 : Nat) ^ 2 - 1) <<< 2 = 12 := rfl
    rw [h12]
    have htb : (12 : Nat).testBit j = false := by interval_cases j <;> decide
    exact lt_or_of_fresh_bit htb hj

/-- On an exact power-of-4 domain the cycle walk stops after one application
and the encode/decode round-trip holds. -/
theorem pow4_roundtrip (d : Digest) (h i f g : Nat) (k0 k1 k2 : Nat)
    (rest : List Index) (hi : i < 2 ^ (2 * h)) :
    ∃ p, permute d (f + 1) (2 ^ (2 * h)) i (k0 :: k1 :: k2 :: rest) (masksOf h) = some p ∧
      p < 2 ^ (2 * h) ∧
      invert_permute d (g + 1) (2 ^ (2 * h)) p (k0 :: k1 :: k2 :: rest) (masksOf h) =
        some i := by
  refine ⟨encode d i (k0 :: k1 :: k2 :: rest) (masksOf h), ?_, encode_lt d i _ h, ?_⟩
  · exact permute_single d f _ i _ _ (encode_lt d i _ h)
  · rw [invert_permute_single d g _ _ _ _ fun v hv => decode_lt d _ _ h hv]
    exact decode_encode d h i k0 k1 k2 rest hi

/-! ### Digest-byte reduction lemmas -/

/-- The OR-fold of the selected digest bytes fits in one byte. -/
theorem feistel_fold_lt (d : Digest) (data : List Nat) :
    (List.range HALF_FEISTEL_BYTES).foldl (fun acc i => acc ||| (d data (i * 8) : Nat)) 0 <
      256 := by
  show (0 : Nat) ||| (d data 0 : Nat) ||| (d data 8 : Nat) ||| (d data 16 : Nat) |||
      (d data 24 : Nat) ||| (d data 32 : Nat) ||| (d data 40 : Nat) |||
      (d data 48 : Nat) ||| (d data 56 : Nat) < 256
  have hfin : (0 : Nat) ||| (d data 0 : Nat) ||| (d data 8 : Nat) ||| (d data 16 : Nat) |||
      (d data 24 : Nat) ||| (d data 32 : Nat) ||| (d data 40 : Nat) |||
      (d data 48 : Nat) ||| (d data 56 : Nat) < 2 ^ 8 :=
    Nat.or_lt_two_pow (Nat.or_lt_two_pow (Nat.or_lt_two_pow (Nat.or_lt_two_pow
      (Nat.or_lt_two_pow (Nat.or_lt_two_pow (Nat.or_lt_two_pow (Nat.or_lt_two_pow
        (by decide) (Fin.isLt _)) (Fin.isLt _)) (Fin.isLt _)) (Fin.isLt _))
      (Fin.isLt _)) (Fin.isLt _)) (Fin.isLt _)) (Fin.isLt _)
  exact hfin

/-- `feistel` unfolded: the digest-byte OR-fold masked by `right_mask`. -/
theorem feistel_eq_fold_and (d : Digest) (r k m : Nat) :
    feistel d r k m =
      (List.range HALF_FEISTEL_BYTES).foldl
        (fun acc i =>
          acc ||| (d (writeHalfBE (writeHalfBE (List.replicate FEISTEL_BYTES 0) r) k)
            (i * 8) : Nat)) 0 &&& m :=
  rfl

/-- Masking a byte-sized value only sees the low 8 bits of the mask. -/
theorem and_agree_low8 {a : Nat} (ha : a < 256) (m : Nat) :
    a &&& m = a &&& (m &&& 255) := by
  apply Nat.eq_of_testBit_eq
  intro i
  simp only [Nat.testBit_and]
  by_cases hi : i < 8
  · have h255 : (255 : Nat).testBit i = true := by
      rw [show (255 : Nat) = 2 ^ 8 - 1 from rfl, Nat.testBit_two_pow_sub_one]
      simp [hi]
    simp [h255]
  · have ha8 : a.testBit i = false := by
      apply Nat.testBit_lt_two_pow
      calc a < 256 := ha
      _ = 2 ^ 8 := rfl
      _ ≤ 2 ^ i := Nat.pow_le_pow_right (by omega) (by omega)
    simp [ha8]

/-! ### Claim theorems -/

/-- C1 (amended): for every `n ≥ 1` with `P = precompute(n)`, every `x` in
the full superset domain `[0, 4 ^ half_bits)`, and every key sequence with at
least `FEISTEL_ROUNDS` keys, `decode (encode x keys P) keys P = x`,
independent of whether `x < n`.  (For shorter key sequences `decode` aborts
with an out-of-bounds key access; see `decode_encode_empty_keys_fails`.) -/
theorem decode_encode_superset (d : Digest) (n : Nat) (P : FeistelPrecomputed)
    (_hn : 1 ≤ n) (hp : precompute n = some P) (x : Nat) (hx : x < 4 ^ P.2.2)
    (keys : List Index) (hkeys : FEISTEL_ROUNDS ≤ keys.length) :
    decode d (encode d x keys P) keys P = some x := by
  have hP := precompute_some hp
  rcases keys with _ | ⟨k0, keys⟩
  · simp [FEISTEL_ROUNDS] at hkeys
  rcases keys with _ | ⟨k1, keys⟩
  · simp [FEISTEL_ROUNDS] at hkeys
  rcases keys with _ | ⟨k2, rest⟩
  · simp [FEISTEL_ROUNDS] at hkeys
  rw [hP]
  apply decode_encode
  have h4 : (2 : Nat) ^ (2 * P.2.2) = 4 ^ P.2.2 := by
    rw [Nat.pow_mul]
  rw [h4]
  exact hx

/-- Witness for `decode_encode_superset` at `n = 1`, `x = 0`,
`keys = [7, 8, 9]`. -/
theorem decode_encode_superset_witness :
    (1 ≤ 1 ∧ precompute 1 = some (2, 1, 1) ∧
        (0 : Nat) < 4 ^ ((2, 1, 1) : FeistelPrecomputed).2.2 ∧
        FEISTEL_ROUNDS ≤ ([7, 8, 9] : List Index).length) ∧
      decode zeroDigest (encode zeroDigest 0 [7, 8, 9] (2, 1, 1)) [7, 8, 9] (2, 1, 1) =
        some 0 :=
  ⟨by decide, decode_encode_superset zeroDigest 1 (2, 1, 1) (by decide) (by decide) 0
    (by decide) [7, 8, 9] (by decide)⟩

/-- C1 counterexample: with the empty key sequence (`n = 1`,
`x = 0 < 4 ^ half_bits`), `decode` aborts with an out-of-bounds key access
(modelled by `none`), so `decode (encode x keys P) keys P` is not `x`. -/
theorem decode_encode_empty_keys_fails :
    precompute 1 = some (2, 1, 1) ∧
      (0 : Nat) < 4 ^ ((2, 1, 1) : FeistelPrecomputed).2.2 ∧
      decode zeroDigest (encode zeroDigest 0 [] (2, 1, 1)) [] (2, 1, 1) ≠ some 0 := by
  decide

/-- C2: for every `n` in `{4, 16, 64, 256}`, every `i < n`, and every key
sequence of length at least 3, `permute` terminates (one `encode`, any
positive fuel) with a value below `n`, and `invert_permute` maps that value
back to `i`. -/
theorem permute_invert_pow4 (d : Digest) (n : Nat) (P : FeistelPrecomputed)
    (hmem : n ∈ ([4, 16, 64, 256] : List Nat)) (hp : precompute n = some P)
    (i : Nat) (hi : i < n) (keys : List Index) (hkeys : 3 ≤ keys.length)
    (f g : Nat) :
    ∃ p, permute d (f + 1) n i keys P = some p ∧ p < n ∧
      invert_permute d (g + 1) n p keys P = some i := by
  rcases keys with _ | ⟨k0, keys⟩
  · simp at hkeys
  rcases keys with _ | ⟨k1, keys⟩
  · simp at hkeys
  rcases keys with _ | ⟨k2, rest⟩
  · simp at hkeys
  simp at hmem
  rcases hmem with rfl | rfl | rfl | rfl
  · have hP : P = masksOf 1 := by
      rw [show precompute 4 = some (masksOf 1) from by decide] at hp
      exact (Option.some.inj hp).symm
    subst hP
    rw [show (4 : Nat) = 2 ^ (2 * 1) from by norm_num] at hi ⊢
    exact pow4_roundtrip d 1 i f g k0 k1 k2 rest hi
  · have hP : P = masksOf 2 := by
      rw [show precompute 16 = some (masksOf 2) from by decide] at hp
      exact (Option.some.inj hp).symm
    subst hP
    rw [show (16 : Nat) = 2 ^ (2 * 2) from by norm_num] at hi ⊢
    exact pow4_roundtrip d 2 i f g k0 k1 k2 rest hi
  · have hP : P = masksOf 3 := by
      rw [show precompute 64 = some (masksOf 3) from by decide] at hp
      exact (Option.some.inj hp).symm
    subst hP
    rw [show (64 : Nat) = 2 ^ (2 * 3) from by norm_num] at hi ⊢
    exact pow4_roundtrip d 3 i f g k0 k1 k2 rest hi
  · have hP : P = masksOf 4 := by
      rw [show precompute 256 = some (masksOf 4) from by decide] at hp
      exact (Option.some.inj hp).symm
    subst hP
    rw [show (256 : Nat) = 2 ^ (2 * 4) from by norm_num] at hi ⊢
    exact pow4_roundtrip d 4 i f g k0 k1 k2 rest hi

/-- Witness for `permute_invert_pow4` at `n = 16`, `i = 7`,
`keys = [1, 2, 3]`. -/
theorem permute_invert_pow4_witness :
    (16 ∈ ([4, 16, 64, 256] : List Nat) ∧ precompute 16 = some (12, 3, 2) ∧
        (7 : Nat) < 16 ∧ 3 ≤ ([1, 2, 3] : List Index).length) ∧
      ∃ p, permute zeroDigest 1 16 7 [1, 2, 3] (12, 3, 2) = some p ∧ p < 16 ∧
        invert_permute zeroDigest 1 16 p [1, 2, 3] (12, 3, 2) = some 7 :=
  ⟨by decide, permute_invert_pow4 zeroDigest 16 (12, 3, 2) (by decide) (by decide) 7
    (by decide) [1, 2, 3] (by decide) 0 0⟩

/-- C3: the round function's output is independent of its `right` argument:
for every digest oracle, key, and mask, and any two right values, `feistel`
agrees on them, because the key bytes are serialized over the exact buffer
positions that previously held the serialized right value, so the hash input
depends only on the key. -/
theorem feistel_independent_of_right (d : Digest) (key mask r1 r2 : Nat) :
    feistel d r1 key mask = feistel d r2 key mask := by
  rw [feistel_const d r1 key mask, feistel_const d r2 key mask]

/-- C4: for every `n ≥ 1` on which `precompute` returns, the `half_bits`
component is the smallest positive integer `h` such that `4 ^ h ≥ n`. -/
theorem precompute_half_bits_minimal (n : Nat) (P : FeistelPrecomputed) (_hn : 1 ≤ n)
    (hp : precompute n = some P) :
    1 ≤ P.2.2 ∧ n ≤ 4 ^ P.2.2 ∧ ∀ j : Nat, 1 ≤ j → n ≤ 4 ^ j → P.2.2 ≤ j :=
  precompute_half_bits hp

/-- Witness for `precompute_half_bits_minimal` at `n = 5`. -/
theorem precompute_half_bits_minimal_witness :
    (1 ≤ 5 ∧ precompute 5 = some (12, 3, 2)) ∧
      (1 ≤ ((12, 3, 2) : FeistelPrecomputed).2.2 ∧
        5 ≤ 4 ^ ((12, 3, 2) : FeistelPrecomputed).2.2 ∧
        ∀ j : Nat, 1 ≤ j → 5 ≤ 4 ^ j → ((12, 3, 2) : FeistelPrecomputed).2.2 ≤ j) :=
  ⟨by decide, precompute_half_bits_minimal 5 (12, 3, 2) (by decide) (by decide)⟩

/-- C5: for every `n ≥ 1` on which `precompute` returns
`(left_mask, right_mask, half_bits)`: `right_mask = (1 <<< half_bits) - 1`,
`left_mask = right_mask <<< half_bits`, the masks are disjoint, and together
they cover exactly the `2 * half_bits` low-order bits. -/
theorem precompute_mask_shape (n lm rm hb : Nat) (_hn : 1 ≤ n)
    (hp : precompute n = some (lm, rm, hb)) :
    rm = (1 <<< hb) - 1 ∧ lm = rm <<< hb ∧ lm &&& rm = 0 ∧
      lm ||| rm = (1 <<< (2 * hb)) - 1 := by
  have hP := precompute_some hp
  simp only [masksOf, Prod.mk.injEq] at hP
  obtain ⟨h1, h2, -⟩ := hP
  subst h1
  subst h2
  refine ⟨rfl, rfl, ?_, ?_⟩
  · simp only [Nat.one_shiftLeft]
    exact mask_disjoint hb
  · simp only [Nat.one_shiftLeft]
    exact mask_union hb

/-- Witness for `precompute_mask_shape` at `n = 5`. -/
theorem precompute_mask_shape_witness :
    (1 ≤ 5 ∧ precompute 5 = some (12, 3, 2)) ∧
      ((3 : Nat) = (1 <<< 2) - 1 ∧ (12 : Nat) = 3 <<< 2 ∧ 12 &&& 3 = 0 ∧
        (12 : Nat) ||| 3 = (1 <<< (2 * 2)) - 1) :=
  ⟨by decide, precompute_mask_shape 5 12 3 2 (by decide) (by decide)⟩

/-- C6 (amended): a key sequence with fewer than `FEISTEL_ROUNDS` elements
makes `decode` — and hence `invert_permute` — perform an out-of-bounds key
access (modelled by `none`); `encode`, and hence `permute`, performs no
out-of-bounds access, silently iterating over only the provided keys (see
`permute_accepts_short_keys`). -/
theorem decode_short_keys_out_of_bounds (d : Digest) (index : Nat)
    (P : FeistelPrecomputed) (keys : List Index)
    (hkeys : keys.length < FEISTEL_ROUNDS) :
    decode d index keys P = none ∧
      ∀ n fuel : Nat, invert_permute d fuel n index keys P = none := by
  have h3 : keys.length < 3 := hkeys
  have hk2 : keys.get? 2 = none := by
    rw [List.get?_eq_getElem?]
    exact List.getElem?_eq_none (by omega)
  have hk2' : keys[2]? = none := by
    rw [← List.get?_eq_getElem?]
    exact hk2
  obtain ⟨lm, rm, hb⟩ := P
  have hdec : decode d index keys (lm, rm, hb) = none := by
    rw [decode_eq]
    simp [decodeRounds, hk2, hk2']
  refine ⟨hdec, fun n fuel => ?_⟩
  unfold invert_permute
  rw [hdec]

/-- Witness for `decode_short_keys_out_of_bounds` with the empty key list. -/
theorem decode_short_keys_out_of_bounds_witness :
    ([] : List Index).length < FEISTEL_ROUNDS ∧
      (decode zeroDigest 0 [] (2, 1, 1) = none ∧
        ∀ n fuel : Nat, invert_permute zeroDigest fuel n 0 [] (2, 1, 1) = none) :=
  ⟨by decide, decode_short_keys_out_of_bounds zeroDigest 0 (2, 1, 1) [] (by decide)⟩

/-- C6 counterexample: with the empty key sequence (fewer than
`FEISTEL_ROUNDS` keys), `permute` returns normally — no out-of-bounds access
occurs, because `encode` only iterates over the keys that exist. -/
theorem permute_accepts_short_keys :
    ([] : List Index).length < FEISTEL_ROUNDS ∧ precompute 4 = some (2, 1, 1) ∧
      permute zeroDigest 1 4 0 [] (2, 1, 1) = some 0 := by
  decide

/-- C7 (amended): with `num_elements = 0`, `permute` and `invert_permute`
never return a value, for every digest oracle, fuel, index, keys, and
precomputed triple: the cycle-walk condition `u >= 0` always holds, so the
loop never exits.  (The shift/mask search of `precompute` itself terminates
at `0`; see `precompute_zero_terminates`.) -/
theorem permute_zero_never_returns (d : Digest) (fuel index : Nat)
    (keys : List Index) (P : FeistelPrecomputed) :
    permute d fuel 0 index keys P = none ∧
      invert_permute d fuel 0 index keys P = none := by
  constructor
  · exact permuteLoop_zero_none d keys P fuel _
  · unfold invert_permute
    rcases decode d index keys P with _ | u
    · rfl
    · exact invertPermuteLoop_zero_none d keys P fuel u

/-- C7 counterexample to the claimed mechanism: the shift/mask computation of
`precompute` terminates at `num_elements = 0` (the loop guard `4 < 0` fails
immediately) and returns the `half_bits = 1` masks. -/
theorem precompute_zero_terminates : precompute 0 = some (2, 1, 1) := by
  decide

/-- C8: for each `n` in `{5, 6, 8, 12, 17}` with keys `[1, 2, 3, 4]` and
`P = precompute(n)`, there is an `i < n` whose round-trip fails or whose
encoding exceeds `n`; encode/decode is not a permutation of `[0, n)` for
these sizes.  (The second disjunct is established, for every digest
oracle.) -/
theorem encode_not_permutation_bad_sizes (d : Digest) (n : Nat)
    (P : FeistelPrecomputed) (hmem : n ∈ ([5, 6, 8, 12, 17] : List Nat))
    (hp : precompute n = some P) :
    ∃ i, i < n ∧
      (decode d (encode d i [1, 2, 3, 4] P) [1, 2, 3, 4] P ≠ some i ∨
        n < encode d i [1, 2, 3, 4] P) := by
  simp at hmem
  rcases hmem with rfl | rfl | rfl | rfl | rfl
  · have hP : P = ((2 ^ 2 - 1) <<< 2, 2 ^ 2 - 1, 2) := by
      rw [show precompute 5 = some ((2 ^ 2 - 1) <<< 2, 2 ^ 2 - 1, 2) from by decide] at hp
      exact (Option.some.inj hp).symm
    subst hP
    obtain ⟨i, hi, he⟩ := encode_escape_of_lt d 2 5 (by decide) (by decide) 1 2 3 [4]
    exact ⟨i, hi, Or.inr he⟩
  · have hP : P = ((2 ^ 2 - 1) <<< 2, 2 ^ 2 - 1, 2) := by
      rw [show precompute 6 = some ((2 ^ 2 - 1) <<< 2, 2 ^ 2 - 1, 2) from by decide] at hp
      exact (Option.some.inj hp).symm
    subst hP
    obtain ⟨i, hi, he⟩ := encode_escape_of_lt d 2 6 (by decide) (by decide) 1 2 3 [4]
    exact ⟨i, hi, Or.inr he⟩
  · have hP : P = ((2 ^ 2 - 1) <<< 2, 2 ^ 2 - 1, 2) := by
      rw [show precompute 8 = some ((2 ^ 2 - 1) <<< 2, 2 ^ 2 - 1, 2) from by decide] at hp
      exact (Option.some.inj hp).symm
    subst hP
    obtain ⟨i, hi, he⟩ := encode_escape_of_lt d 2 8 (by decide) (by decide) 1 2 3 [4]
    exact ⟨i, hi, Or.inr he⟩
  · have hP : P = ((2 ^ 2 - 1) <<< 2, 2 ^ 2 - 1, 2) := by
      rw [show precompute 12 = some ((2 ^ 2 - 1) <<< 2, 2 ^ 2 - 1, 2) from by decide] at hp
      exact (Option.some.inj hp).symm
    subst hP
    obtain ⟨i, hi, he⟩ := encode_escape_twelve d
    exact ⟨i, hi, Or.inr he⟩
  · have hP : P = ((2 ^ 3 - 1) <<< 3, 2 ^ 3 - 1, 3) := by
      rw [show precompute 17 = some ((2 ^ 3 - 1) <<< 3, 2 ^ 3 - 1, 3) from by decide] at hp
      exact (Option.some.inj hp).symm
    subst hP
    obtain ⟨i, hi, he⟩ := encode_escape_of_lt d 3 17 (by decide) (by decide) 1 2 3 [4]
    exact ⟨i, hi, Or.inr he⟩

/-- Witness for `encode_not_permutation_bad_sizes` at `n = 5`. -/
theorem encode_not_permutation_bad_sizes_witness :
    (5 ∈ ([5, 6, 8, 12, 17] : List Nat) ∧ precompute 5 = some (12, 3, 2)) ∧
      ∃ i, i < 5 ∧
        (decode zeroDigest (encode zeroDigest i [1, 2, 3, 4] (12, 3, 2)) [1, 2, 3, 4]
            (12, 3, 2) ≠ some i ∨
          5 < encode zeroDigest i [1, 2, 3, 4] (12, 3, 2)) :=
  ⟨by decide, encode_not_permutation_bad_sizes zeroDigest 5 (12, 3, 2) (by decide)
    (by decide)⟩

/-- C9: when `n ≥ 1` equals `4 ^ half_bits` for the `half_bits` computed by
`precompute(n)`, the cycle-walk loop body never executes: for every index and
key sequence, `permute` equals a single `encode` and `invert_permute` equals
a single `decode` (both with any positive fuel), because encode and decode
always land below `4 ^ half_bits`. -/
theorem pow4_no_cycle_walk (d : Digest) (n : Nat) (P : FeistelPrecomputed)
    (_hn : 1 ≤ n) (hp : precompute n = some P) (hpow : n = 4 ^ P.2.2)
    (index : Nat) (keys : List Index) (f g : Nat) :
    permute d (f + 1) n index keys P = some (encode d index keys P) ∧
      invert_permute d (g + 1) n index keys P = decode d index keys P := by
  have hP := precompute_some hp
  have h4 : n = 2 ^ (2 * P.2.2) := by
    rw [hpow, Nat.pow_mul]
  constructor
  · apply permute_single
    rw [h4, hP]
    exact encode_lt d index keys P.2.2
  · apply invert_permute_single
    intro v hv
    rw [h4]
    rw [hP] at hv
    exact decode_lt d index keys P.2.2 hv

/-- Witness for `pow4_no_cycle_walk` at `n = 4`, `index = 3`,
`keys = [1, 2, 3]`. -/
theorem pow4_no_cycle_walk_witness :
    (1 ≤ 4 ∧ precompute 4 = some (2, 1, 1) ∧
        (4 : Nat) = 4 ^ ((2, 1, 1) : FeistelPrecomputed).2.2) ∧
      (permute zeroDigest 1 4 3 [1, 2, 3] (2, 1, 1) =
          some (encode zeroDigest 3 [1, 2, 3] (2, 1, 1)) ∧
        invert_permute zeroDigest 1 4 3 [1, 2, 3] (2, 1, 1) =
          decode zeroDigest 3 [1, 2, 3] (2, 1, 1)) :=
  ⟨by decide, pow4_no_cycle_walk zeroDigest 4 (2, 1, 1) (by decide) (by decide)
    (by decide) 3 [1, 2, 3] 0 0⟩

/-- C10: for every digest oracle, right value, key, and mask, the round
function's result is below `256` — the digest reduction ORs the unshifted
bytes `hash[0], hash[8], ..., hash[56]`, so the value fits in one byte even
before masking — and only the low 8 bits of `right_mask` can affect the
result. -/
theorem feistel_byte_sized (d : Digest) (right key right_mask : Nat) :
    feistel d right key right_mask < 256 ∧
      feistel d right key right_mask = feistel d right key (right_mask &&& 255) := by
  have hf := feistel_fold_lt d
    (writeHalfBE (writeHalfBE (List.replicate FEISTEL_BYTES 0) right) key)
  constructor
  · rw [feistel_eq_fold_and]
    exact Nat.lt_of_le_of_lt Nat.and_le_left hf
  · rw [feistel_eq_fold_and d right key right_mask,
      feistel_eq_fold_and d right key (right_mask &&& 255)]
    exact and_agree_low8 hf right_mask

end FeistelRs
